import Mathlib

set_option autoImplicit false

/-!
Verification of the core numeric components of the x-transformers repository
(file `x_transformers/x_transformers.py`): the relative-position bucketing,
the gated feed-forward unit (GEGLU), multi-head attention with padding and
causal masking, and the Encoder/Decoder residual stacks.

Modelling conventions.

* Tensor entries are rationals `ℚ`; a tensor is a function of its integer
  indices together with the relevant extent parameters (batch index `bi`,
  sequence position `i`/`j`, feature index `t`/`f`).  The batch axis of the
  source is carried as the first index; all operations of the source act on
  batch slices independently (broadcast einsums), which the embedding mirrors
  by assembling the per-slice pipeline at each batch index.
* The float value `-inf` written into attention logits by `masked_fill_` is
  modelled by `Option ℚ` with `none` standing for `-inf` (the only non-finite
  value that can reach the softmax input).  The softmax output lives in the
  IEEE-754-style type `FV` below, so that `0/0 = NaN` arising from a fully
  masked row is represented faithfully and its propagation through the
  weighted value sum and the output projection can be proved.
* Transcendental float functions are abstracted by function parameters:
  `E : ℚ → ℚ` stands for the exponential used by the softmax, `lg : ℚ → ℚ`
  for the natural logarithm of the bucketing function, `gelu : ℚ → ℚ` for the
  GELU activation.  No theorem below assumes more about them than properties
  that the float implementations enjoy (for `lg`: monotonicity, `lg 1 = 0`,
  positivity past `1` — true of the correctly-rounded float logarithm).
-/

/-- IEEE-754-style extended value: a finite rational, one of the two
infinities, or NaN.  This is the value domain of the attention probabilities
and of everything downstream of the softmax, where the source's float
arithmetic can produce `NaN` (`0/0` on a fully masked row). -/
inductive FV where
  | fin (q : ℚ)
  | pinf
  | ninf
  | nan
  deriving DecidableEq

/-- IEEE-754 addition on extended values: NaN propagates, opposite
infinities give NaN, an infinity absorbs finite values. -/
def FV.add (x y : FV) : FV :=
  match x, y with
  | .nan, _ => .nan
  | _, .nan => .nan
  | .fin a, .fin b => .fin (a + b)
  | .fin _, .pinf => .pinf
  | .pinf, .fin _ => .pinf
  | .fin _, .ninf => .ninf
  | .ninf, .fin _ => .ninf
  | .pinf, .pinf => .pinf
  | .ninf, .ninf => .ninf
  | .pinf, .ninf => .nan
  | .ninf, .pinf => .nan

/-- IEEE-754 multiplication on extended values: NaN propagates, an infinity
times zero is NaN, otherwise infinities follow the sign rules. -/
def FV.mul (x y : FV) : FV :=
  match x, y with
  | .nan, _ => .nan
  | _, .nan => .nan
  | .fin a, .fin b => .fin (a * b)
  | .fin a, .pinf => if a = 0 then .nan else if 0 < a then .pinf else .ninf
  | .pinf, .fin b => if b = 0 then .nan else if 0 < b then .pinf else .ninf
  | .fin a, .ninf => if a = 0 then .nan else if 0 < a then .ninf else .pinf
  | .ninf, .fin b => if b = 0 then .nan else if 0 < b then .ninf else .pinf
  | .pinf, .pinf => .pinf
  | .pinf, .ninf => .ninf
  | .ninf, .pinf => .ninf
  | .ninf, .ninf => .pinf

instance : Zero FV := ⟨FV.fin 0⟩

instance : Add FV := ⟨FV.add⟩

instance : Mul FV := ⟨FV.mul⟩

theorem FV.add_def (x y : FV) : x + y = FV.add x y := rfl

theorem FV.mul_def (x y : FV) : x * y = FV.mul x y := rfl

theorem FV.zero_def : (0 : FV) = FV.fin 0 := rfl

instance : AddCommMonoid FV where
  add_assoc a b c := by
    cases a <;> cases b <;> cases c <;>
      simp [FV.add_def, FV.add, add_assoc]
  zero_add a := by
    cases a <;> simp [FV.zero_def, FV.add_def, FV.add]
  add_zero a := by
    cases a <;> simp [FV.zero_def, FV.add_def, FV.add]
  add_comm a b := by
    cases a <;> cases b <;> simp [FV.add_def, FV.add, add_comm]
  nsmul := nsmulRec

/-- Truncation toward zero: the conversion performed by the source's
`.long()` cast from float to int64.  It agrees with `Int.floor` on
nonnegative arguments. -/
def toLong (q : ℚ) : ℤ := if q < 0 then -⌊(-q : ℚ)⌋ else ⌊q⌋

theorem toLong_of_nonneg {q : ℚ} (h : 0 ≤ q) : toLong q = ⌊q⌋ := by
  unfold toLong
  rw [if_neg (not_lt.mpr h)]

theorem toLong_nonneg {q : ℚ} (h : 0 ≤ q) : 0 ≤ toLong q := by
  rw [toLong_of_nonneg h]
  exact Int.floor_nonneg.mpr h

theorem toLong_mono_of_nonneg {a b : ℚ} (ha : 0 ≤ a) (hab : a ≤ b) :
    toLong a ≤ toLong b := by
  rw [toLong_of_nonneg ha, toLong_of_nonneg (ha.trans hab)]
  exact Int.floor_mono hab

/-- The relative position bias module (source lines 23-29): causal flag,
bucket count, configured maximum distance, head count, and the learned
bucket-by-head table `relative_attention_bias` (an `nn.Embedding`, indexed by
the int64 bucket index). -/
structure RelativePositionBias where
  causal : Bool
  num_buckets : ℕ
  max_distance : ℚ
  heads : ℕ
  relative_attention_bias : ℤ → ℕ → ℚ

/-- The `val_if_large` computation of the bucketing method (source lines
45-48), already clamped by the `torch.min` with `num_buckets - 1`: here `nb`
is the (possibly halved) bucket count in scope at that point of the method
and `me` its `max_exact = nb // 2`.  `lg` abstracts the float natural
logarithm; `.long()` is `toLong`. -/
def RelativePositionBias.largeVal (lg : ℚ → ℚ) (nb me n : ℕ) (max_distance : ℚ) : ℤ :=
  min ((me : ℤ) +
      toLong (lg ((n : ℚ) / (me : ℚ)) / lg (max_distance / (me : ℚ)) * ((nb : ℚ) - (me : ℚ))))
    ((nb : ℤ) - 1)

/-- The `torch.where(is_small, n, val_if_large)` selection of source line 50,
with `max_exact = nb // 2`. -/
def RelativePositionBias.whereVal (lg : ℚ → ℚ) (nb n : ℕ) (max_distance : ℚ) : ℤ :=
  if n < nb / 2 then (n : ℤ) else RelativePositionBias.largeVal lg nb (nb / 2) n max_distance

/-- The nonnegative magnitude `n` after the sign handling of source lines
34-40: `n = -relative_position`, then `|n|` in causal mode and
`max(n, 0)` otherwise. -/
def RelativePositionBias.nVal (causal : Bool) (relative_position : ℤ) : ℕ :=
  if causal then (-relative_position).natAbs else (max (-relative_position) 0).toNat

/-- Embeds the static bucketing method `_relative_position_bucket` of
`RelativePositionBias` (source lines 31-51).  In causal mode the bucket count
is halved and `num_buckets // 2` is added for positions with
`-relative_position < 0` (the "future" half); the remaining magnitude is
bucketed directly when small and logarithmically (clamped) when large. -/
def RelativePositionBias.relative_position_bucket (lg : ℚ → ℚ) (relative_position : ℤ)
    (causal : Bool) (num_buckets : ℕ) (max_distance : ℚ) : ℤ :=
  (if causal ∧ -relative_position < 0 then ((num_buckets / 2 : ℕ) : ℤ) else 0) +
    RelativePositionBias.whereVal lg (if causal then num_buckets / 2 else num_buckets)
      (RelativePositionBias.nVal causal relative_position) max_distance

/-- Embeds `RelativePositionBias.forward` (source lines 53-61): the learned
bias for the bucket of the offset `k_pos - q_pos = j - i` is added to the
attention logits.  The bias is rearranged to `() h i j` in the source, i.e.
broadcast over the batch axis, so the embedding is stated on the
`(head, query, key)` indices.  The source call passes `causal` and
`num_buckets` but omits `max_distance`, so the bucketing always runs with the
method's default `max_distance = 128`. -/
def RelativePositionBias.forward (lg : ℚ → ℚ) (s : RelativePositionBias)
    (qk_dots : ℕ → ℕ → ℕ → ℚ) : ℕ → ℕ → ℕ → ℚ :=
  fun h i j =>
    qk_dots h i j +
      s.relative_attention_bias
        (RelativePositionBias.relative_position_bucket lg ((j : ℤ) - (i : ℤ))
          s.causal s.num_buckets 128) h

/-- The GEGLU module (source lines 85-92): a single linear projection of
width `2 * dim_out` whose output is split in two halves by
`chunk(2, dim = -1)`.  `W` and `b` are the projection's weight and bias;
feature `o` of the projection is row `o` of `W`. -/
structure GEGLU where
  dim_in : ℕ
  dim_out : ℕ
  W : ℕ → ℕ → ℚ
  b : ℕ → ℚ

/-- Feature `o` of the linear projection `self.proj` of GEGLU applied to an
input vector `x` of length `dim_in`. -/
def GEGLU.proj (g : GEGLU) (x : ℕ → ℚ) (o : ℕ) : ℚ :=
  g.b o + ∑ t ∈ Finset.range g.dim_in, g.W o t * x t

/-- Embeds `GEGLU.forward` (source lines 90-92): `x, gate = proj.chunk(2)`,
with the first half at features `0 ≤ o < dim_out` and the second half
(`gate`, bound but never used by the source) at features `dim_out + o`.  The
returned value is `x * F.gelu(x)`, built from the first half only.  `gelu`
abstracts the float GELU activation. -/
def GEGLU.forward (gelu : ℚ → ℚ) (g : GEGLU) (x : ℕ → ℚ) (o : ℕ) : ℚ :=
  let xh : ℕ → ℚ := fun oo => g.proj x oo
  let gate : ℕ → ℚ := fun oo => g.proj x (g.dim_out + oo)
  xh o * gelu (xh o)

/-- The Attention module (source lines 112-123).  `Wq` is the weight of
`to_q : Linear(dim, inner_dim)` (no bias), `Wkv` the weight of
`to_kv : Linear(dim, inner_dim * 2)` (no bias; first `inner_dim` rows give
keys, the rest values), `Wo`/`bo` the weight and bias of
`to_out : Linear(inner_dim, dim)`.  The source sets
`scale = dim_head ** -0.5` at construction; the field keeps that float as an
abstract rational since every claim below is independent of its value (and
the exact value is irrational for general `dim_head`). -/
structure Attention where
  dim : ℕ
  dim_head : ℕ
  heads : ℕ
  causal : Bool
  scale : ℚ
  Wq : ℕ → ℕ → ℚ
  Wkv : ℕ → ℕ → ℚ
  Wo : ℕ → ℕ → ℚ
  bo : ℕ → ℚ

/-- `inner_dim = dim_head * heads` (source line 120). -/
def Attention.inner_dim (A : Attention) : ℕ := A.dim_head * A.heads

/-- Feature `f` of the query projection of sequence position `i` of a batch
slice `x` (source line 129). -/
def Attention.toQ (A : Attention) (x : ℕ → ℕ → ℚ) (i f : ℕ) : ℚ :=
  ∑ t ∈ Finset.range A.dim, A.Wq f t * x i t

/-- Feature `f` of the key projection of position `j` of the key/value input
(first chunk of `to_kv`, source line 130). -/
def Attention.toK (A : Attention) (kv : ℕ → ℕ → ℚ) (j f : ℕ) : ℚ :=
  ∑ t ∈ Finset.range A.dim, A.Wkv f t * kv j t

/-- Feature `f` of the value projection of position `j` (second chunk of
`to_kv`, rows `inner_dim + f` of `Wkv`, source line 130). -/
def Attention.toV (A : Attention) (kv : ℕ → ℕ → ℚ) (j f : ℕ) : ℚ :=
  ∑ t ∈ Finset.range A.dim, A.Wkv (A.inner_dim + f) t * kv j t

/-- The scaled dot-product logit for head `hd`, query `i`, key `j` (source
lines 132-133).  The rearrange `b n (h d) -> b h n d` maps head `hd` and
within-head feature `dd` to the flat feature `hd * dim_head + dd`. -/
def Attention.dots (A : Attention) (xq kv : ℕ → ℕ → ℚ) (hd i j : ℕ) : ℚ :=
  (∑ dd ∈ Finset.range A.dim_head,
      A.toQ xq i (hd * A.dim_head + dd) * A.toK kv j (hd * A.dim_head + dd)) * A.scale

/-- The logits after the optional relative-position bias (source lines
135-136): when a `rel_pos` module is supplied, the whole logit tensor is
passed through it (per batch slice; the bias the source uses is
batch-independent). -/
def Attention.dotsB (A : Attention) (relPos : Option ((ℕ → ℕ → ℕ → ℚ) → (ℕ → ℕ → ℕ → ℚ)))
    (xq kv : ℕ → ℕ → ℚ) (hd i j : ℕ) : ℚ :=
  match relPos with
  | some rp => rp (A.dots xq kv) hd i j
  | none => A.dots xq kv hd i j

/-- The logits after the two `masked_fill_` steps (source lines 138-150),
with `none` standing for `-inf`.  When a padding mask is in play
(`useMask`), the source fills `-inf` exactly where the conjunction
`q_mask[i] AND k_mask[j]` of the broadcast validity masks is TRUE (line
144: `dots.masked_fill_(mask, float('-inf'))` on the un-negated mask).  In
causal mode the strict upper triangle `j ≥ i + 1` is filled afterwards
(lines 147-150). -/
def Attention.maskedDots (A : Attention) (relPos : Option ((ℕ → ℕ → ℕ → ℚ) → (ℕ → ℕ → ℕ → ℚ)))
    (useMask : Bool) (qm km : ℕ → Bool) (xq kv : ℕ → ℕ → ℚ) (hd i j : ℕ) : Option ℚ :=
  if A.causal = true ∧ i + 1 ≤ j then none
  else if useMask = true ∧ (qm i && km j) = true then none
  else some (A.dotsB relPos xq kv hd i j)

/-- Softmax division in float arithmetic: `0/0 = NaN`, `num/0 = ±inf` for
nonzero `num`, and exact division otherwise. -/
def Attention.softmaxDiv (num den : ℚ) : FV :=
  if den = 0 then (if num = 0 then FV.nan else if 0 < num then FV.pinf else FV.ninf)
  else FV.fin (num / den)

/-- Numerator of the softmax at `(hd, i, j)`: the exponential of the masked
logit, with `exp(-inf) = 0`.  `E` abstracts the float exponential. -/
def Attention.attnNum (A : Attention) (E : ℚ → ℚ)
    (relPos : Option ((ℕ → ℕ → ℕ → ℚ) → (ℕ → ℕ → ℕ → ℚ))) (useMask : Bool)
    (qm km : ℕ → Bool) (xq kv : ℕ → ℕ → ℚ) (hd i j : ℕ) : ℚ :=
  match A.maskedDots relPos useMask qm km xq kv hd i j with
  | none => 0
  | some q => E q

/-- Denominator of the softmax over the key axis (source line 152), the sum
of the exponentials over the `m` key positions. -/
def Attention.attnDen (A : Attention) (E : ℚ → ℚ)
    (relPos : Option ((ℕ → ℕ → ℕ → ℚ) → (ℕ → ℕ → ℕ → ℚ))) (useMask : Bool)
    (qm km : ℕ → Bool) (xq kv : ℕ → ℕ → ℚ) (m hd i : ℕ) : ℚ :=
  ∑ j ∈ Finset.range m, A.attnNum E relPos useMask qm km xq kv hd i j

/-- The post-softmax attention weight `attn[hd, i, j]` (source line 152). -/
def Attention.attn (A : Attention) (E : ℚ → ℚ)
    (relPos : Option ((ℕ → ℕ → ℕ → ℚ) → (ℕ → ℕ → ℕ → ℚ))) (useMask : Bool)
    (qm km : ℕ → Bool) (xq kv : ℕ → ℕ → ℚ) (m hd i j : ℕ) : FV :=
  Attention.softmaxDiv (A.attnNum E relPos useMask qm km xq kv hd i j)
    (A.attnDen E relPos useMask qm km xq kv m hd i)

/-- The weighted value sum `einsum('b h i j, b h j d -> b h i d', attn, v)`
(source line 153) at head `hd`, query `i`, within-head feature `dd`. -/
def Attention.headOut (A : Attention) (E : ℚ → ℚ)
    (relPos : Option ((ℕ → ℕ → ℕ → ℚ) → (ℕ → ℕ → ℕ → ℚ))) (useMask : Bool)
    (qm km : ℕ → Bool) (xq kv : ℕ → ℕ → ℚ) (m hd i dd : ℕ) : FV :=
  ∑ j ∈ Finset.range m,
    A.attn E relPos useMask qm km xq kv m hd i j * FV.fin (A.toV kv j (hd * A.dim_head + dd))

/-- Feature `o` of the final output at query `i`: heads are re-flattened by
`b h n d -> b n (h d)` (flat feature `f` holds head `f / dim_head`,
within-head feature `f % dim_head`) and passed through `to_out` (source
lines 154-155). -/
def Attention.outEntry (A : Attention) (E : ℚ → ℚ)
    (relPos : Option ((ℕ → ℕ → ℕ → ℚ) → (ℕ → ℕ → ℕ → ℚ))) (useMask : Bool)
    (qm km : ℕ → Bool) (xq kv : ℕ → ℕ → ℚ) (m i o : ℕ) : FV :=
  FV.fin (A.bo o) +
    ∑ f ∈ Finset.range A.inner_dim,
      FV.fin (A.Wo o f) *
        A.headOut E relPos useMask qm km xq kv m (f / A.dim_head) i (f % A.dim_head)

/-- Embeds `Attention.forward` (source lines 125-155) at batch index `bi`,
query position `i`, output feature `o`.  `x` has extent `n` on the sequence
axis; `context` (key/value input and its length) defaults to `(x, n)`
(self-attention, line 127); `mask`/`context_mask` are the optional validity
masks, defaulting to all-ones (lines 139-140), and the masking branch runs
exactly when at least one of them is supplied (line 138). -/
def Attention.forward (A : Attention) (E : ℚ → ℚ) (n : ℕ) (x : ℕ → ℕ → ℕ → ℚ)
    (context : Option ((ℕ → ℕ → ℕ → ℚ) × ℕ))
    (mask context_mask : Option (ℕ → ℕ → Bool))
    (relPos : Option ((ℕ → ℕ → ℕ → ℚ) → (ℕ → ℕ → ℕ → ℚ))) (bi i o : ℕ) : FV :=
  A.outEntry E relPos (mask.isSome || context_mask.isSome)
    (fun ii => (mask.getD (fun _ _ => true)) bi ii)
    (fun jj => (context_mask.getD (fun _ _ => true)) bi jj)
    (fun p t => x bi p t) (fun p t => (context.getD (x, n)).1 bi p t)
    (context.getD (x, n)).2 i o

/-- The post-softmax attention weights as `Attention.forward` computes them
(same argument assembly as `Attention.forward`, exposing the intermediate
`attn` of source line 152 for head `hd`, query `i`, key `j`). -/
def Attention.attnB (A : Attention) (E : ℚ → ℚ) (n : ℕ) (x : ℕ → ℕ → ℕ → ℚ)
    (context : Option ((ℕ → ℕ → ℕ → ℚ) × ℕ))
    (mask context_mask : Option (ℕ → ℕ → Bool))
    (relPos : Option ((ℕ → ℕ → ℕ → ℚ) → (ℕ → ℕ → ℕ → ℚ))) (bi hd i j : ℕ) : FV :=
  A.attn E relPos (mask.isSome || context_mask.isSome)
    (fun ii => (mask.getD (fun _ _ => true)) bi ii)
    (fun jj => (context_mask.getD (fun _ _ => true)) bi jj)
    (fun p t => x bi p t) (fun p t => (context.getD (x, n)).1 bi p t)
    (context.getD (x, n)).2 hd i j

/-- Materialisation of a `(b, n, d)` tensor given by an index function, as
nested lists. -/
def tensor3 {γ : Type} (b n d : ℕ) (f : ℕ → ℕ → ℕ → γ) : List (List (List γ)) :=
  (List.range b).map fun bi => (List.range n).map fun i => (List.range d).map fun t => f bi i t

/-- The full shape data of a rank-3 nested-list tensor: outer length, the
lengths at depth one, and the lengths at depth two. -/
def dims3 {γ : Type} (t : List (List (List γ))) : ℕ × List ℕ × List (List ℕ) :=
  (t.length, t.map List.length, t.map fun r => r.map List.length)

/-- `Attention.forward` materialised as a `(batch, seq, dim)` tensor: the
output feature axis has extent `dim` because `to_out` projects the
`inner_dim = heads * dim_head` concatenated heads back to `dim`. -/
def Attention.forwardT (A : Attention) (E : ℚ → ℚ) (b n : ℕ) (x : ℕ → ℕ → ℕ → ℚ)
    (context : Option ((ℕ → ℕ → ℕ → ℚ) × ℕ))
    (mask context_mask : Option (ℕ → ℕ → Bool))
    (relPos : Option ((ℕ → ℕ → ℕ → ℚ) → (ℕ → ℕ → ℕ → ℚ))) : List (List (List FV)) :=
  tensor3 b n A.dim fun bi i o => A.forward E n x context mask context_mask relPos bi i o

/-- One Encoder layer (source lines 167-171): a pre-norm-wrapped
self-attention sublayer (called with the layer input, the mask and the
shared `rel_pos` module, line 174) and a pre-norm-wrapped feed-forward
sublayer.  The sublayers are abstracted as functions of exactly the
arguments the stack passes them. -/
structure EncoderLayer (α μ ρ : Type) where
  self_attn : α → μ → ρ → α
  ff : α → α

/-- The Encoder stack (source lines 157-176): an ordered list of layers and
one shared relative-position module `rel_pos` handed to every layer. -/
structure Encoder (α μ ρ : Type) where
  layers : List (EncoderLayer α μ ρ)
  rel_pos : ρ

/-- Embeds `Encoder.forward` (source lines 172-176): for each layer in
order, `x = self_attn(x, mask = mask, rel_pos = self.rel_pos) + x` then
`x = ff(x) + x`.  The `context` argument of the source's signature is
accepted and never used. -/
def Encoder.forward {α μ ρ : Type} [Add α] (s : Encoder α μ ρ) (x : α)
    (context : Option α) (mask : μ) : α :=
  s.layers.foldl (fun acc L =>
    let a1 := L.self_attn acc mask s.rel_pos + acc
    L.ff a1 + a1) x

/-- The Encoder constructor loop (source lines 167-171): `depth` layers,
layer `li` holding the modules produced for it (`sa li`, `ffm li`). -/
def Encoder.init {α μ ρ : Type} (depth : ℕ) (sa : ℕ → α → μ → ρ → α)
    (ffm : ℕ → α → α) (rp : ρ) : Encoder α μ ρ :=
  ⟨(List.range depth).map fun li => ⟨sa li, ffm li⟩, rp⟩

/-- One Decoder layer (source lines 188-193): causal self-attention (called
with only the layer input and `rel_pos`, line 196), an optional
cross-attention sublayer (called with the input, `context`, `mask` and
`context_mask`, line 198), and feed-forward. -/
structure DecoderLayer (α β μ ρ : Type) where
  self_attn : α → ρ → α
  cross_attn : Option (α → β → μ → μ → α)
  ff : α → α

/-- The Decoder stack (source lines 178-200). -/
structure Decoder (α β μ ρ : Type) where
  layers : List (DecoderLayer α β μ ρ)
  rel_pos : ρ

/-- Embeds `Decoder.forward` (source lines 194-200): per layer,
`x = self_attn(x, rel_pos = self.rel_pos) + x`; if the layer has a
cross-attention sublayer,
`x = cross_attn(x, context = context, mask = mask, context_mask = context_mask) + x`;
then `x = ff(x) + x`.  The padding masks reach only the cross-attention
sublayer. -/
def Decoder.forward {α β μ ρ : Type} [Add α] (s : Decoder α β μ ρ) (x : α)
    (context : β) (mask context_mask : μ) : α :=
  s.layers.foldl (fun acc L =>
    let a1 := L.self_attn acc s.rel_pos + acc
    let a2 := match L.cross_attn with
      | some ca => ca a1 context mask context_mask + a1
      | none => a1
    L.ff a2 + a2) x

/-- The Decoder constructor loop (source lines 188-193): `depth` layers;
the cross-attention slot of every layer is populated exactly when
`cross_attend` is true. -/
def Decoder.init {α β μ ρ : Type} (depth : ℕ) (cross_attend : Bool)
    (sa : ℕ → α → ρ → α) (ca : ℕ → α → β → μ → μ → α) (ffm : ℕ → α → α)
    (rp : ρ) : Decoder α β μ ρ :=
  ⟨(List.range depth).map fun li =>
      ⟨sa li, if cross_attend then some (ca li) else none, ffm li⟩, rp⟩

/-- Tags for the kinds of residual sublayer applications a stack performs. -/
inductive SubK where
  | selfAttn
  | crossAttn
  | ff
  deriving DecidableEq, BEq

/-- The sequence of tagged residual sublayer applications an Encoder's
forward pass performs, in order: for each layer, its residual
self-attention step then its residual feed-forward step. -/
def Encoder.apps {α μ ρ : Type} [Add α] (s : Encoder α μ ρ) (mask : μ) :
    List (SubK × (α → α)) :=
  s.layers.flatMap fun L =>
    [(SubK.selfAttn, fun x => L.self_attn x mask s.rel_pos + x),
     (SubK.ff, fun x => L.ff x + x)]

/-- The sequence of tagged residual sublayer applications a Decoder's
forward pass performs, in order. -/
def Decoder.apps {α β μ ρ : Type} [Add α] (s : Decoder α β μ ρ) (context : β)
    (mask context_mask : μ) : List (SubK × (α → α)) :=
  s.layers.flatMap fun L =>
    [(SubK.selfAttn, fun x => L.self_attn x s.rel_pos + x)] ++
    (match L.cross_attn with
      | some ca => [(SubK.crossAttn, fun x => ca x context mask context_mask + x)]
      | none => []) ++
    [(SubK.ff, fun x => L.ff x + x)]

/-- Sequential application of a tagged list of functions. -/
def applySeq {α : Type} (l : List (SubK × (α → α))) (x : α) : α :=
  l.foldl (fun a p => p.2 a) x

theorem RelativePositionBias.argNonneg (lg : ℚ → ℚ) (hmono : Monotone lg) (h1 : lg 1 = 0)
    (hpos : ∀ x : ℚ, 1 < x → 0 < lg x) (nb n : ℕ) (md : ℚ)
    (hme : 1 ≤ nb / 2) (hmd : ((nb / 2 : ℕ) : ℚ) < md) (hn : nb / 2 ≤ n) :
    0 ≤ lg ((n : ℚ) / ((nb / 2 : ℕ) : ℚ)) / lg (md / ((nb / 2 : ℕ) : ℚ)) *
        ((nb : ℚ) - ((nb / 2 : ℕ) : ℚ)) := by
  have hmeQ : (0 : ℚ) < ((nb / 2 : ℕ) : ℚ) := by exact_mod_cast hme
  have h1le : (1 : ℚ) ≤ (n : ℚ) / ((nb / 2 : ℕ) : ℚ) :=
    (one_le_div hmeQ).mpr (by exact_mod_cast hn)
  have hlgn : 0 ≤ lg ((n : ℚ) / ((nb / 2 : ℕ) : ℚ)) := by
    have := hmono h1le
    rwa [h1] at this
  have hlgd : 0 < lg (md / ((nb / 2 : ℕ) : ℚ)) := hpos _ ((one_lt_div hmeQ).mpr hmd)
  have hC : (0 : ℚ) ≤ (nb : ℚ) - ((nb / 2 : ℕ) : ℚ) := by
    have h := Nat.div_le_self nb 2
    have : ((nb / 2 : ℕ) : ℚ) ≤ (nb : ℚ) := by exact_mod_cast h
    linarith
  exact mul_nonneg (div_nonneg hlgn hlgd.le) hC

theorem RelativePositionBias.largeVal_ge (lg : ℚ → ℚ) (hmono : Monotone lg) (h1 : lg 1 = 0)
    (hpos : ∀ x : ℚ, 1 < x → 0 < lg x) (nb n : ℕ) (md : ℚ)
    (hme : 1 ≤ nb / 2) (hmd : ((nb / 2 : ℕ) : ℚ) < md) (hn : nb / 2 ≤ n) :
    ((nb / 2 : ℕ) : ℤ) ≤ RelativePositionBias.largeVal lg nb (nb / 2) n md := by
  unfold RelativePositionBias.largeVal
  have harg := RelativePositionBias.argNonneg lg hmono h1 hpos nb n md hme hmd hn
  have ht := toLong_nonneg harg
  refine le_min (by omega) ?_
  have h2 : 2 ≤ nb := by omega
  have h3 : nb / 2 < nb := by omega
  omega

theorem RelativePositionBias.whereVal_nonneg (lg : ℚ → ℚ) (hmono : Monotone lg)
    (h1 : lg 1 = 0) (hpos : ∀ x : ℚ, 1 < x → 0 < lg x) (nb n : ℕ) (md : ℚ)
    (hme : 1 ≤ nb / 2) (hmd : ((nb / 2 : ℕ) : ℚ) < md) :
    0 ≤ RelativePositionBias.whereVal lg nb n md := by
  unfold RelativePositionBias.whereVal
  split
  · exact Int.natCast_nonneg n
  · rename_i hns
    have := RelativePositionBias.largeVal_ge lg hmono h1 hpos nb n md hme hmd (le_of_not_lt hns)
    omega

theorem RelativePositionBias.whereVal_lt (lg : ℚ → ℚ) (nb n : ℕ) (md : ℚ)
    (hme : 1 ≤ nb / 2) :
    RelativePositionBias.whereVal lg nb n md < (nb : ℤ) := by
  unfold RelativePositionBias.whereVal
  have h2 : 2 ≤ nb := by omega
  split
  · rename_i hsm
    have : n < nb := lt_of_lt_of_le hsm (Nat.div_le_self nb 2)
    exact_mod_cast this
  · unfold RelativePositionBias.largeVal
    have := min_le_right ((((nb / 2 : ℕ) : ℤ)) +
        toLong (lg ((n : ℚ) / ((nb / 2 : ℕ) : ℚ)) / lg (md / ((nb / 2 : ℕ) : ℚ)) *
          ((nb : ℚ) - ((nb / 2 : ℕ) : ℚ)))) ((nb : ℤ) - 1)
    omega

theorem RelativePositionBias.whereVal_mono (lg : ℚ → ℚ) (hmono : Monotone lg)
    (h1 : lg 1 = 0) (hpos : ∀ x : ℚ, 1 < x → 0 < lg x) (nb : ℕ) (md : ℚ)
    (hme : 1 ≤ nb / 2) (hmd : ((nb / 2 : ℕ) : ℚ) < md) {n1 n2 : ℕ} (hn : n1 ≤ n2) :
    RelativePositionBias.whereVal lg nb n1 md ≤ RelativePositionBias.whereVal lg nb n2 md := by
  unfold RelativePositionBias.whereVal
  by_cases h2 : n2 < nb / 2
  · rw [if_pos (lt_of_le_of_lt hn h2), if_pos h2]
    exact_mod_cast hn
  · rw [if_neg h2]
    have hn2 : nb / 2 ≤ n2 := le_of_not_lt h2
    by_cases hs1 : n1 < nb / 2
    · rw [if_pos hs1]
      have hLV := RelativePositionBias.largeVal_ge lg hmono h1 hpos nb n2 md hme hmd hn2
      have : (n1 : ℤ) < ((nb / 2 : ℕ) : ℤ) := by exact_mod_cast hs1
      omega
    · rw [if_neg hs1]
      have hn1 : nb / 2 ≤ n1 := le_of_not_lt hs1
      unfold RelativePositionBias.largeVal
      refine min_le_min (add_le_add_left ?_ _) le_rfl
      have hmeQ : (0 : ℚ) < ((nb / 2 : ℕ) : ℚ) := by exact_mod_cast hme
      have hL : 0 < lg (md / ((nb / 2 : ℕ) : ℚ)) := hpos _ ((one_lt_div hmeQ).mpr hmd)
      have hC : (0 : ℚ) ≤ (nb : ℚ) - ((nb / 2 : ℕ) : ℚ) := by
        have h := Nat.div_le_self nb 2
        have : ((nb / 2 : ℕ) : ℚ) ≤ (nb : ℚ) := by exact_mod_cast h
        linarith
      have hdivle : (n1 : ℚ) / ((nb / 2 : ℕ) : ℚ) ≤ (n2 : ℚ) / ((nb / 2 : ℕ) : ℚ) :=
        (div_le_div_iff_of_pos_right hmeQ).mpr (by exact_mod_cast hn)
      have hfrac : lg ((n1 : ℚ) / ((nb / 2 : ℕ) : ℚ)) / lg (md / ((nb / 2 : ℕ) : ℚ)) ≤
          lg ((n2 : ℚ) / ((nb / 2 : ℕ) : ℚ)) / lg (md / ((nb / 2 : ℕ) : ℚ)) :=
        (div_le_div_iff_of_pos_right hL).mpr (hmono hdivle)
      exact toLong_mono_of_nonneg
        (RelativePositionBias.argNonneg lg hmono h1 hpos nb n1 md hme hmd hn1)
        (mul_le_mul_of_nonneg_right hfrac hC)

/-- C3: for every integer relative-position offset, in both causal and
non-causal mode, and for every valid configuration (the halved-and-halved
bucket count `max_exact` is at least 1 and `max_distance` exceeds it — the
configurations for which the source's log-bucketing formula is meaningful),
the bucket index returned by `_relative_position_bucket` lies in
`[0, num_buckets)`.  `lg` is any function with the order properties of the
float logarithm. -/
theorem rpb_bucket_range (lg : ℚ → ℚ) (hmono : Monotone lg) (h1 : lg 1 = 0)
    (hpos : ∀ x : ℚ, 1 < x → 0 < lg x) (causal : Bool) (num_buckets : ℕ)
    (max_distance : ℚ) (relative_position : ℤ)
    (hme : 1 ≤ (if causal then num_buckets / 2 else num_buckets) / 2)
    (hmd : (((if causal then num_buckets / 2 else num_buckets) / 2 : ℕ) : ℚ) < max_distance) :
    0 ≤ RelativePositionBias.relative_position_bucket lg relative_position causal
        num_buckets max_distance ∧
      RelativePositionBias.relative_position_bucket lg relative_position causal
        num_buckets max_distance < (num_buckets : ℤ) := by
  have h0 := RelativePositionBias.whereVal_nonneg lg hmono h1 hpos
    (if causal then num_buckets / 2 else num_buckets)
    (RelativePositionBias.nVal causal relative_position) max_distance hme hmd
  have hlt := RelativePositionBias.whereVal_lt lg
    (if causal then num_buckets / 2 else num_buckets)
    (RelativePositionBias.nVal causal relative_position) max_distance hme
  unfold RelativePositionBias.relative_position_bucket
  cases causal with
  | false =>
    simp only [Bool.false_eq_true, false_and, if_false] at h0 hlt ⊢
    constructor <;> omega
  | true =>
    simp only [eq_self_iff_true, if_true, true_and] at h0 hlt hme ⊢
    by_cases hrp : -relative_position < 0
    · rw [if_pos hrp]
      constructor <;> omega
    · rw [if_neg hrp]
      constructor <;> omega

theorem RelativePositionBias.nVal_le_of_nonpos (causal : Bool) {o1 o2 : ℤ}
    (h1 : o1 ≤ 0) (h2 : o2 ≤ 0) (habs : o1.natAbs ≤ o2.natAbs) :
    RelativePositionBias.nVal causal o1 ≤ RelativePositionBias.nVal causal o2 := by
  unfold RelativePositionBias.nVal
  cases causal with
  | false =>
    simp only [Bool.false_eq_true, if_false]
    omega
  | true =>
    simp only [eq_self_iff_true, if_true]
    omega

/-- C4: within each sign half of the offset range (both offsets nonpositive
— the causal "past" half — or both nonnegative), a larger absolute offset
never gets a strictly smaller bucket index, in both causal and non-causal
mode, under the same validity assumptions as the range theorem. -/
theorem rpb_bucket_monotone (lg : ℚ → ℚ) (hmono : Monotone lg) (h1 : lg 1 = 0)
    (hpos : ∀ x : ℚ, 1 < x → 0 < lg x) (causal : Bool) (num_buckets : ℕ)
    (max_distance : ℚ) (o1 o2 : ℤ)
    (hme : 1 ≤ (if causal then num_buckets / 2 else num_buckets) / 2)
    (hmd : (((if causal then num_buckets / 2 else num_buckets) / 2 : ℕ) : ℚ) < max_distance)
    (hhalf : (o1 ≤ 0 ∧ o2 ≤ 0) ∨ (0 ≤ o1 ∧ 0 ≤ o2))
    (habs : o1.natAbs ≤ o2.natAbs) :
    RelativePositionBias.relative_position_bucket lg o1 causal num_buckets max_distance ≤
      RelativePositionBias.relative_position_bucket lg o2 causal num_buckets max_distance := by
  unfold RelativePositionBias.relative_position_bucket
  rcases hhalf with ⟨ho1, ho2⟩ | ⟨ho1, ho2⟩
  · -- both offsets in the nonpositive ("past") half: no future-half shift
    have hn := RelativePositionBias.nVal_le_of_nonpos causal ho1 ho2 habs
    have hw := RelativePositionBias.whereVal_mono lg hmono h1 hpos
      (if causal then num_buckets / 2 else num_buckets) max_distance hme hmd hn
    have hc1 : ¬(causal = true ∧ -o1 < 0) := by
      rintro ⟨-, hlt⟩
      omega
    have hc2 : ¬(causal = true ∧ -o2 < 0) := by
      rintro ⟨-, hlt⟩
      omega
    rw [if_neg hc1, if_neg hc2]
    omega
  · -- both offsets nonnegative
    cases causal with
    | false =>
      -- non-causal mode clips -offset at zero: both magnitudes are 0
      have e1 : RelativePositionBias.nVal false o1 = 0 := by
        unfold RelativePositionBias.nVal
        simp only [Bool.false_eq_true, if_false]
        omega
      have e2 : RelativePositionBias.nVal false o2 = 0 := by
        unfold RelativePositionBias.nVal
        simp only [Bool.false_eq_true, if_false]
        omega
      rw [e1, e2]
      simp only [Bool.false_eq_true, false_and, if_false]
      exact le_refl _
    | true =>
      simp only [eq_self_iff_true, true_and, if_true] at hme hmd ⊢
      by_cases h0 : o1 = 0
      · -- offset 0 sits in bucket 0; every bucket is nonnegative
        subst h0
        have hwn := RelativePositionBias.whereVal_nonneg lg hmono h1 hpos
          (num_buckets / 2) (RelativePositionBias.nVal true o2) max_distance hme hmd
        have e1 : RelativePositionBias.nVal true 0 = 0 := by
          unfold RelativePositionBias.nVal
          simp
        rw [e1]
        have hL0 : RelativePositionBias.whereVal lg (num_buckets / 2) 0 max_distance = 0 := by
          unfold RelativePositionBias.whereVal
          rw [if_pos (by omega)]
          simp
        rw [hL0, if_neg (by omega : ¬(-(0 : ℤ) < 0))]
        by_cases hrp2 : -o2 < 0
        · rw [if_pos hrp2]
          omega
        · rw [if_neg hrp2]
          omega
      · -- both offsets strictly positive: both get the future-half shift
        have ho1p : 0 < o1 := lt_of_le_of_ne ho1 (Ne.symm h0)
        have ho2p : 0 < o2 := by omega
        rw [if_pos (show -o1 < 0 by omega), if_pos (show -o2 < 0 by omega)]
        have hn : RelativePositionBias.nVal true o1 ≤ RelativePositionBias.nVal true o2 := by
          unfold RelativePositionBias.nVal
          simp only [eq_self_iff_true, if_true]
          omega
        have hw := RelativePositionBias.whereVal_mono lg hmono h1 hpos
          (num_buckets / 2) max_distance hme hmd hn
        omega

/-- A concrete stand-in for the logarithm in witnesses: monotone, zero at 1,
positive past 1. -/
def lgW : ℚ → ℚ := fun q => q - 1

theorem lgW_monotone : Monotone lgW := by
  intro a b h
  simp only [lgW]
  linarith

theorem lgW_one : lgW 1 = 0 := by
  norm_num [lgW]

theorem lgW_pos : ∀ x : ℚ, 1 < x → 0 < lgW x := by
  intro x hx
  simp only [lgW]
  linarith

/-- Witness for `rpb_bucket_range`: the default configuration
(`num_buckets = 32`, `max_distance = 128`), causal mode, offset `-50`. -/
theorem rpb_bucket_range_witness :
    0 ≤ RelativePositionBias.relative_position_bucket lgW (-50) true 32 128 ∧
      RelativePositionBias.relative_position_bucket lgW (-50) true 32 128 < (32 : ℤ) :=
  rpb_bucket_range lgW lgW_monotone lgW_one lgW_pos true 32 128 (-50)
    (by norm_num) (by norm_num)

/-- Witness for `rpb_bucket_monotone`: past-half offsets `-3` and `-50` in
the default causal configuration. -/
theorem rpb_bucket_monotone_witness :
    RelativePositionBias.relative_position_bucket lgW (-3) true 32 128 ≤
      RelativePositionBias.relative_position_bucket lgW (-50) true 32 128 :=
  rpb_bucket_monotone lgW lgW_monotone lgW_one lgW_pos true 32 128 (-3) (-50)
    (by norm_num) (by norm_num)
    (Or.inl ⟨by norm_num, by norm_num⟩) (by norm_num)

/-- C9: the configured `max_distance` is dead: `RelativePositionBias.forward`
calls the bucketing function without forwarding `self.max_distance`, so two
instances that differ only in `max_distance` produce identical outputs on
every logit tensor, and the bucketing always runs with the method's default
`max_distance = 128`. -/
theorem rpb_forward_max_distance_unused (lg : ℚ → ℚ) (causal : Bool)
    (num_buckets heads : ℕ) (md md' : ℚ) (table : ℤ → ℕ → ℚ)
    (qk_dots : ℕ → ℕ → ℕ → ℚ) :
    RelativePositionBias.forward lg ⟨causal, num_buckets, md, heads, table⟩ qk_dots =
        RelativePositionBias.forward lg ⟨causal, num_buckets, md', heads, table⟩ qk_dots ∧
      RelativePositionBias.forward lg ⟨causal, num_buckets, md, heads, table⟩ qk_dots =
        fun h i j =>
          qk_dots h i j +
            table (RelativePositionBias.relative_position_bucket lg ((j : ℤ) - (i : ℤ))
              causal num_buckets 128) h :=
  ⟨rfl, rfl⟩

/-- C5: in the gated feed-forward variant the GEGLU projection (constructed
as `GEGLU(dim, dim * mult)`, hence of width `2 * dim * mult`) is split in
two halves, and the output of the gating stage is `h1 * gelu h1` where `h1`
is the FIRST half — both the value path and the gate.  Consequently the
second half of the projection (rows at and above `dim * mult`) has no effect:
replacing all of them leaves the output unchanged. -/
theorem geglu_same_half_gating (gelu : ℚ → ℚ) (dim mult : ℕ) (W W' : ℕ → ℕ → ℚ)
    (b b' : ℕ → ℚ) (x : ℕ → ℚ) (o : ℕ) (ho : o < dim * mult)
    (hagree : ∀ oo, oo < dim * mult → b oo = b' oo ∧ ∀ t, W oo t = W' oo t) :
    GEGLU.forward gelu ⟨dim, dim * mult, W, b⟩ x o =
        GEGLU.proj ⟨dim, dim * mult, W, b⟩ x o *
          gelu (GEGLU.proj ⟨dim, dim * mult, W, b⟩ x o) ∧
      GEGLU.forward gelu ⟨dim, dim * mult, W, b⟩ x o =
        GEGLU.forward gelu ⟨dim, dim * mult, W', b'⟩ x o := by
  have hproj : GEGLU.proj ⟨dim, dim * mult, W, b⟩ x o =
      GEGLU.proj ⟨dim, dim * mult, W', b'⟩ x o := by
    unfold GEGLU.proj
    dsimp only
    obtain ⟨hb, hw⟩ := hagree o ho
    rw [hb]
    exact congrArg _ (Finset.sum_congr rfl fun t _ => by rw [hw t])
  refine ⟨rfl, ?_⟩
  show GEGLU.proj ⟨dim, dim * mult, W, b⟩ x o *
      gelu (GEGLU.proj ⟨dim, dim * mult, W, b⟩ x o) =
    GEGLU.proj ⟨dim, dim * mult, W', b'⟩ x o *
      gelu (GEGLU.proj ⟨dim, dim * mult, W', b'⟩ x o)
  rw [hproj]

def c5W : ℕ → ℕ → ℚ := fun oo _ => if oo = 0 then 2 else 5

def c5W' : ℕ → ℕ → ℚ := fun oo _ => if oo = 0 then 2 else 7

def c5b : ℕ → ℚ := fun _ => 0

def c5x : ℕ → ℚ := fun _ => 3

/-- A concrete stand-in for the GELU activation in witnesses. -/
def geluW : ℚ → ℚ := fun q => q

/-- Witness for `geglu_same_half_gating`: `dim = mult = 1`, two weight
matrices agreeing on the first half and differing on the second. -/
theorem geglu_same_half_gating_witness :
    GEGLU.forward geluW ⟨1, 1 * 1, c5W, c5b⟩ c5x 0 =
        GEGLU.proj ⟨1, 1 * 1, c5W, c5b⟩ c5x 0 *
          geluW (GEGLU.proj ⟨1, 1 * 1, c5W, c5b⟩ c5x 0) ∧
      GEGLU.forward geluW ⟨1, 1 * 1, c5W, c5b⟩ c5x 0 =
        GEGLU.forward geluW ⟨1, 1 * 1, c5W', c5b⟩ c5x 0 :=
  geglu_same_half_gating geluW 1 1 c5W c5W' c5b c5b c5x 0 (by norm_num)
    (fun oo hoo =>
      ⟨rfl, fun t => by simp [c5W, c5W', show oo = 0 by omega]⟩)

/-- A minimal attention configuration: `dim = dim_head = heads = 1`,
non-causal, unit scale and unit projection weights, zero output bias. -/
def AcUnit : Attention :=
  ⟨1, 1, 1, false, 1, fun _ _ => 1, fun _ _ => 1, fun _ _ => 1, fun _ => 0⟩

/-- A concrete stand-in for the softmax exponential in the closed
evaluations below (any positive function exhibits the same behaviour). -/
def Eone : ℚ → ℚ := fun _ => 1

def c1x : ℕ → ℕ → ℕ → ℚ := fun _ _ _ => 1

def c1ctx : ℕ → ℕ → ℕ → ℚ := fun _ j _ => (j : ℚ)

/-- Context mask marking key 0 valid and key 1 invalid (padding). -/
def c1cmask : ℕ → ℕ → Bool := fun _ j => j == 0

/-- C1 (counter-evaluation): the source builds the combined mask as the
conjunction of the query-validity and key-validity masks but then calls
`masked_fill_(mask, -inf)` on it un-negated, so logits are erased exactly
where BOTH sides are VALID.  At a concrete cross-attention input with one
(valid) query and two keys of which key 1 is marked invalid by
`context_mask`, the post-softmax weights are 1 on the invalid key and 0 on
the valid key — the claim demands weight 0 on every invalid position. -/
theorem attention_mask_polarity_inverted :
    c1cmask 0 1 = false ∧
      Attention.attnB AcUnit Eone 1 c1x (some (c1ctx, 2)) none (some c1cmask) none 0 0 0 1 =
        FV.fin 1 ∧
      Attention.attnB AcUnit Eone 1 c1x (some (c1ctx, 2)) none (some c1cmask) none 0 0 0 0 =
        FV.fin 0 := by
  refine ⟨rfl, ?_, ?_⟩ <;>
    simp +decide [Attention.attnB, Attention.attn, Attention.attnNum, Attention.attnDen,
      Attention.maskedDots, Attention.dotsB, Attention.dots, Attention.toQ, Attention.toK,
      Attention.softmaxDiv, Attention.inner_dim, AcUnit, Eone, c1x, c1ctx, c1cmask,
      Finset.sum_range_succ]

/-- Padding mask marking every position of every batch row valid. -/
def c8mask : ℕ → ℕ → Bool := fun _ _ => true

/-- C8 (counter-evaluation): the source applies the softmax to the masked
logits with no special case for fully masked rows.  At a concrete input of
one query and one key with the all-valid mask `[[true]]` supplied, the
(inverted) fill erases every logit of the row, the softmax computes
`0 / 0 = NaN`, and the NaN propagates through the value sum and the output
projection: the forward output is NaN, unchecked. -/
theorem attention_fully_masked_nan :
    Attention.forward AcUnit Eone 1 c1x none (some c8mask) none none 0 0 0 = FV.nan := by
  simp +decide [Attention.forward, Attention.outEntry, Attention.headOut, Attention.attn,
    Attention.attnNum, Attention.attnDen, Attention.maskedDots, Attention.dotsB,
    Attention.dots, Attention.toQ, Attention.toK, Attention.toV, Attention.softmaxDiv,
    Attention.inner_dim, AcUnit, Eone, c1x, c8mask, Finset.sum_range_succ,
    FV.mul_def, FV.mul, FV.add_def, FV.add, FV.zero_def]

theorem Attention.toQ_congr (A : Attention) {x x' : ℕ → ℕ → ℚ} {i : ℕ}
    (h : ∀ t, x i t = x' i t) (f : ℕ) : A.toQ x i f = A.toQ x' i f :=
  Finset.sum_congr rfl fun t _ => by rw [h t]

theorem Attention.toK_congr (A : Attention) {kv kv' : ℕ → ℕ → ℚ} {j : ℕ}
    (h : ∀ t, kv j t = kv' j t) (f : ℕ) : A.toK kv j f = A.toK kv' j f :=
  Finset.sum_congr rfl fun t _ => by rw [h t]

theorem Attention.toV_congr (A : Attention) {kv kv' : ℕ → ℕ → ℚ} {j : ℕ}
    (h : ∀ t, kv j t = kv' j t) (f : ℕ) : A.toV kv j f = A.toV kv' j f :=
  Finset.sum_congr rfl fun t _ => by rw [h t]

theorem Attention.dots_congr (A : Attention) {xq xq' kv kv' : ℕ → ℕ → ℚ} {i j : ℕ}
    (hq : ∀ t, xq i t = xq' i t) (hk : ∀ t, kv j t = kv' j t) (hd : ℕ) :
    A.dots xq kv hd i j = A.dots xq' kv' hd i j := by
  unfold Attention.dots
  exact congrArg (· * A.scale)
    (Finset.sum_congr rfl fun dd _ => by rw [A.toQ_congr hq, A.toK_congr hk])

theorem Attention.attnNum_causal_zero (A : Attention) (E : ℚ → ℚ) (qm km : ℕ → Bool)
    (xq kv : ℕ → ℕ → ℚ) {i j : ℕ} (hc : A.causal = true) (hij : i + 1 ≤ j) (hd : ℕ) :
    A.attnNum E none false qm km xq kv hd i j = 0 := by
  unfold Attention.attnNum Attention.maskedDots
  rw [if_pos ⟨hc, hij⟩]

theorem Attention.attnNum_causal_congr (A : Attention) (E : ℚ → ℚ) (qm km : ℕ → Bool)
    {x x' : ℕ → ℕ → ℚ} {i : ℕ} (hc : A.causal = true)
    (hx : ∀ p, p ≤ i → ∀ t, x p t = x' p t) (hd j : ℕ) :
    A.attnNum E none false qm km x x hd i j =
      A.attnNum E none false qm km x' x' hd i j := by
  by_cases hij : i + 1 ≤ j
  · rw [A.attnNum_causal_zero E qm km x x hc hij hd,
      A.attnNum_causal_zero E qm km x' x' hc hij hd]
  · have hj : j ≤ i := by omega
    unfold Attention.attnNum Attention.maskedDots
    have hnc : ¬(A.causal = true ∧ i + 1 ≤ j) := fun h => hij h.2
    have hnm : ¬((false : Bool) = true ∧ (qm i && km j) = true) := fun h =>
      Bool.false_ne_true h.1
    rw [if_neg hnc, if_neg hnc, if_neg hnm, if_neg hnm]
    show E (A.dotsB none x x hd i j) = E (A.dotsB none x' x' hd i j)
    show E (A.dots x x hd i j) = E (A.dots x' x' hd i j)
    rw [A.dots_congr (hx i le_rfl) (hx j hj)]

theorem Attention.attnDen_causal_congr (A : Attention) (E : ℚ → ℚ) (qm km : ℕ → Bool)
    {x x' : ℕ → ℕ → ℚ} {i : ℕ} (hc : A.causal = true)
    (hx : ∀ p, p ≤ i → ∀ t, x p t = x' p t) (m hd : ℕ) :
    A.attnDen E none false qm km x x m hd i =
      A.attnDen E none false qm km x' x' m hd i :=
  Finset.sum_congr rfl fun j _ => A.attnNum_causal_congr E qm km hc hx hd j

theorem Attention.attn_causal_congr (A : Attention) (E : ℚ → ℚ) (qm km : ℕ → Bool)
    {x x' : ℕ → ℕ → ℚ} {i : ℕ} (hc : A.causal = true)
    (hx : ∀ p, p ≤ i → ∀ t, x p t = x' p t) (m hd j : ℕ) :
    A.attn E none false qm km x x m hd i j = A.attn E none false qm km x' x' m hd i j := by
  unfold Attention.attn
  rw [A.attnNum_causal_congr E qm km hc hx hd j,
    A.attnDen_causal_congr E qm km hc hx m hd]

theorem Attention.softmaxDiv_zero_mul_fin (den a a' : ℚ) :
    Attention.softmaxDiv 0 den * FV.fin a = Attention.softmaxDiv 0 den * FV.fin a' := by
  unfold Attention.softmaxDiv
  by_cases h : den = 0
  · rw [if_pos h, if_pos rfl]
    rfl
  · rw [if_neg h, zero_div]
    show FV.fin (0 * a) = FV.fin (0 * a')
    rw [zero_mul, zero_mul]

theorem Attention.headOut_causal_congr (A : Attention) (E : ℚ → ℚ) (qm km : ℕ → Bool)
    {x x' : ℕ → ℕ → ℚ} {i : ℕ} (hc : A.causal = true)
    (hx : ∀ p, p ≤ i → ∀ t, x p t = x' p t) (m hd dd : ℕ) :
    A.headOut E none false qm km x x m hd i dd =
      A.headOut E none false qm km x' x' m hd i dd := by
  unfold Attention.headOut
  refine Finset.sum_congr rfl fun j _ => ?_
  by_cases hij : i + 1 ≤ j
  · rw [A.attn_causal_congr E qm km hc hx m hd j]
    unfold Attention.attn
    rw [A.attnNum_causal_zero E qm km x' x' hc hij hd]
    exact Attention.softmaxDiv_zero_mul_fin _ _ _
  · have hj : j ≤ i := by omega
    rw [A.attn_causal_congr E qm km hc hx m hd j, A.toV_congr (hx j hj)]

theorem Attention.outEntry_causal_congr (A : Attention) (E : ℚ → ℚ) (qm km : ℕ → Bool)
    {x x' : ℕ → ℕ → ℚ} {i : ℕ} (hc : A.causal = true)
    (hx : ∀ p, p ≤ i → ∀ t, x p t = x' p t) (m o : ℕ) :
    A.outEntry E none false qm km x x m i o =
      A.outEntry E none false qm km x' x' m i o := by
  unfold Attention.outEntry
  exact congrArg _ (Finset.sum_congr rfl fun f _ =>
    congrArg _ (A.headOut_causal_congr E qm km hc hx m (f / A.dim_head) (f % A.dim_head)))

/-- C2: a causal attention module called with no padding masks (and no
relative-position bias) cannot leak information backwards: if two inputs
agree at every sequence position strictly before `j` (in every batch row and
feature), the outputs of `Attention.forward` agree exactly at every query
position `i < j`, for every weight configuration and every softmax
exponential. -/
theorem attention_causal_independence (A : Attention) (E : ℚ → ℚ) (n : ℕ)
    (x x' : ℕ → ℕ → ℕ → ℚ) (j : ℕ) (hc : A.causal = true)
    (hagree : ∀ bi p, p < j → ∀ t, x bi p t = x' bi p t)
    (bi i o : ℕ) (hij : i < j) :
    A.forward E n x none none none none bi i o =
      A.forward E n x' none none none none bi i o := by
  have hx : ∀ p, p ≤ i → ∀ t, x bi p t = x' bi p t := fun p hp t =>
    hagree bi p (lt_of_le_of_lt hp hij) t
  exact A.outEntry_causal_congr E _ _ hc hx n o

/-- Causal configuration for the independence witness. -/
def AcCausal : Attention :=
  ⟨1, 1, 1, true, 1, fun _ _ => 1, fun _ _ => 1, fun _ _ => 1, fun _ => 0⟩

def c2x : ℕ → ℕ → ℕ → ℚ := fun _ _ _ => 0

def c2x' : ℕ → ℕ → ℕ → ℚ := fun _ p _ => if p = 0 then 0 else 1

/-- Witness for `attention_causal_independence`: two length-2 inputs that
agree at position 0 and differ at position 1; the outputs at query position
0 coincide. -/
theorem attention_causal_independence_witness :
    Attention.forward AcCausal Eone 2 c2x none none none none 0 0 0 =
      Attention.forward AcCausal Eone 2 c2x' none none none none 0 0 0 :=
  attention_causal_independence AcCausal Eone 2 c2x c2x' 1 rfl
    (fun bi p hp t => by
      have hp0 : p = 0 := by omega
      simp [c2x, c2x', hp0])
    0 0 0 (by omega)

/-- C7: the materialised output of `Attention.forward` has exactly the shape
of the `(batch, seq, dim)` input representation tensor, for every
configuration — in particular also when `heads * dim_head` differs from
`dim`, since `to_out` projects the `inner_dim`-wide head concatenation back
to `dim`. -/
theorem attention_shape_invariance (A : Attention) (E : ℚ → ℚ) (b n : ℕ)
    (x : ℕ → ℕ → ℕ → ℚ) (context : Option ((ℕ → ℕ → ℕ → ℚ) × ℕ))
    (mask context_mask : Option (ℕ → ℕ → Bool))
    (relPos : Option ((ℕ → ℕ → ℕ → ℚ) → (ℕ → ℕ → ℕ → ℚ))) :
    dims3 (A.forwardT E b n x context mask context_mask relPos) =
      dims3 (tensor3 b n A.dim x) := by
  simp [Attention.forwardT, tensor3, dims3, List.map_map, Function.comp]

theorem encoder_forward_eq_applySeq {α μ ρ : Type} [Add α] (s : Encoder α μ ρ)
    (x : α) (c : Option α) (m : μ) :
    s.forward x c m = applySeq (s.apps m) x := by
  obtain ⟨ls, rp⟩ := s
  induction ls generalizing x with
  | nil => rfl
  | cons L t ih =>
    exact ih (L.ff (L.self_attn x m rp + x) + (L.self_attn x m rp + x))

theorem decoder_forward_eq_applySeq {α β μ ρ : Type} [Add α] (s : Decoder α β μ ρ)
    (x : α) (c : β) (m cm : μ) :
    s.forward x c m cm = applySeq (s.apps c m cm) x := by
  obtain ⟨ls, rp⟩ := s
  induction ls generalizing x with
  | nil => rfl
  | cons L t ih =>
    obtain ⟨sa, oca, ffm⟩ := L
    cases oca with
    | none => exact ih (ffm (sa x rp + x) + (sa x rp + x))
    | some ca =>
      exact ih (ffm (ca (sa x rp + x) c m cm + (sa x rp + x)) +
        (ca (sa x rp + x) c m cm + (sa x rp + x)))

theorem encoder_apps_tags {α μ ρ : Type} [Add α] (s : Encoder α μ ρ) (m : μ) :
    (s.apps m).map Prod.fst = s.layers.flatMap fun _ => [SubK.selfAttn, SubK.ff] := by
  obtain ⟨ls, rp⟩ := s
  induction ls with
  | nil => rfl
  | cons L t ih =>
    simp only [Encoder.apps, List.flatMap_cons, List.map_append] at ih ⊢
    rw [ih]
    rfl

theorem decoder_apps_tags {α β μ ρ : Type} [Add α] (s : Decoder α β μ ρ)
    (c : β) (m cm : μ) :
    (s.apps c m cm).map Prod.fst =
      s.layers.flatMap fun L =>
        [SubK.selfAttn] ++
          (match L.cross_attn with
            | some _ => [SubK.crossAttn]
            | none => []) ++ [SubK.ff] := by
  obtain ⟨ls, rp⟩ := s
  induction ls with
  | nil => rfl
  | cons L t ih =>
    obtain ⟨sa, oca, ffm⟩ := L
    cases oca with
    | none =>
      simp only [Decoder.apps, List.flatMap_cons, List.map_append] at ih ⊢
      rw [ih]
      rfl
    | some ca =>
      simp only [Decoder.apps, List.flatMap_cons, List.map_append] at ih ⊢
      rw [ih]
      rfl

theorem flatMap_map_fn {γ δ ε : Type} (l : List γ) (f : γ → δ) (g : δ → List ε) :
    (l.map f).flatMap g = l.flatMap fun a => g (f a) := by
  induction l with
  | nil => rfl
  | cons a t ih => simp only [List.map_cons, List.flatMap_cons, ih]

theorem count_flatMap_const {γ : Type} (l : List γ) (c : List SubK) (k : SubK) :
    (l.flatMap fun _ => c).count k = l.length * c.count k := by
  induction l with
  | nil => simp
  | cons a t ih =>
    rw [List.flatMap_cons, List.count_append, ih, List.length_cons]
    ring

/-- C6: an Encoder or Decoder built with `depth = 0` has an empty layer list
and its forward pass returns the input unchanged (no layer module is
consulted); a stack of depth `d` performs exactly the sequence of residual
sublayer applications recorded by its tagged application list: the forward
pass equals the sequential application of that list, whose tag word is the
per-layer pattern (`self-attention` then `feed-forward`, with the optional
`cross-attention` in between for a Decoder built with `cross_attend`)
repeated `d` times in construction order, containing exactly `d`
self-attention tags and exactly `d` feed-forward tags. -/
theorem depth_composition :
    (∀ (α μ ρ : Type) [Add α] (sa : ℕ → α → μ → ρ → α) (ffm : ℕ → α → α) (rp : ρ)
        (x : α) (c : Option α) (m : μ),
        (Encoder.init 0 sa ffm rp).forward x c m = x) ∧
      (∀ (α β μ ρ : Type) [Add α] (ct : Bool) (sa : ℕ → α → ρ → α)
          (ca : ℕ → α → β → μ → μ → α) (ffm : ℕ → α → α) (rp : ρ)
          (x : α) (c : β) (m cm : μ),
          (Decoder.init 0 ct sa ca ffm rp).forward x c m cm = x) ∧
      (∀ (α μ ρ : Type) [Add α] (d : ℕ) (sa : ℕ → α → μ → ρ → α) (ffm : ℕ → α → α)
          (rp : ρ) (x : α) (c : Option α) (m : μ),
          (Encoder.init d sa ffm rp).forward x c m =
              applySeq ((Encoder.init d sa ffm rp).apps m) x ∧
            ((Encoder.init d sa ffm rp).apps m).map Prod.fst =
              (List.range d).flatMap (fun _ => [SubK.selfAttn, SubK.ff]) ∧
            (((Encoder.init d sa ffm rp).apps m).map Prod.fst).count SubK.selfAttn = d ∧
            (((Encoder.init d sa ffm rp).apps m).map Prod.fst).count SubK.ff = d) ∧
      (∀ (α β μ ρ : Type) [Add α] (d : ℕ) (ct : Bool) (sa : ℕ → α → ρ → α)
          (ca : ℕ → α → β → μ → μ → α) (ffm : ℕ → α → α) (rp : ρ)
          (x : α) (c : β) (m cm : μ),
          (Decoder.init d ct sa ca ffm rp).forward x c m cm =
              applySeq ((Decoder.init d ct sa ca ffm rp).apps c m cm) x ∧
            ((Decoder.init d ct sa ca ffm rp).apps c m cm).map Prod.fst =
              (List.range d).flatMap
                (fun _ => [SubK.selfAttn] ++
                  (if ct then [SubK.crossAttn] else []) ++ [SubK.ff]) ∧
            (((Decoder.init d ct sa ca ffm rp).apps c m cm).map Prod.fst).count
                SubK.selfAttn = d ∧
            (((Decoder.init d ct sa ca ffm rp).apps c m cm).map Prod.fst).count
                SubK.ff = d) := by
  refine ⟨fun α μ ρ _ sa ffm rp x c m => rfl,
    fun α β μ ρ _ ct sa ca ffm rp x c m cm => rfl,
    fun α μ ρ _ d sa ffm rp x c m => ?_,
    fun α β μ ρ _ d ct sa ca ffm rp x c m cm => ?_⟩
  · have htags : ((Encoder.init d sa ffm rp).apps m).map Prod.fst =
        (List.range d).flatMap fun _ => [SubK.selfAttn, SubK.ff] := by
      rw [encoder_apps_tags]
      exact flatMap_map_fn (List.range d) _ _
    refine ⟨encoder_forward_eq_applySeq _ x c m, htags, ?_, ?_⟩
    · rw [htags, count_flatMap_const, List.length_range]
      show d * 1 = d
      exact Nat.mul_one d
    · rw [htags, count_flatMap_const, List.length_range]
      show d * 1 = d
      exact Nat.mul_one d
  · have htags : ((Decoder.init d ct sa ca ffm rp).apps c m cm).map Prod.fst =
        (List.range d).flatMap fun _ =>
          [SubK.selfAttn] ++ (if ct then [SubK.crossAttn] else []) ++ [SubK.ff] := by
      rw [decoder_apps_tags]
      rw [show (Decoder.init d ct sa ca ffm rp).layers =
        (List.range d).map (fun li =>
          (⟨sa li, if ct then some (ca li) else none, ffm li⟩ :
            DecoderLayer α β μ ρ)) from rfl]
      rw [flatMap_map_fn]
      cases ct with
      | false => rfl
      | true => rfl
    refine ⟨decoder_forward_eq_applySeq _ x c m cm, htags, ?_, ?_⟩
    · rw [htags, count_flatMap_const, List.length_range]
      cases ct with
      | false =>
        show d * 1 = d
        exact Nat.mul_one d
      | true =>
        show d * 1 = d
        exact Nat.mul_one d
    · rw [htags, count_flatMap_const, List.length_range]
      cases ct with
      | false =>
        show d * 1 = d
        exact Nat.mul_one d
      | true =>
        show d * 1 = d
        exact Nat.mul_one d

theorem Decoder.forward_none_cross_aux {α β μ ρ : Type} [Add α] (idx : List ℕ)
    (sa : ℕ → α → ρ → α) (ffm : ℕ → α → α) (rp : ρ)
    (x : α) (c c' : β) (m m' cm cm' : μ) :
    Decoder.forward ⟨idx.map fun li => ⟨sa li, none, ffm li⟩, rp⟩ x c m cm =
      Decoder.forward ⟨idx.map fun li => ⟨sa li, none, ffm li⟩, rp⟩ x c' m' cm' := by
  induction idx generalizing x with
  | nil => rfl
  | cons a t ih => exact ih (ffm a (sa a x rp + x) + (sa a x rp + x))

/-- C10: a Decoder built with `cross_attend = false` has no cross-attention
sublayers, and its forward output is completely independent of the
`context`, `mask` and `context_mask` arguments — the causal self-attention
sublayers are called without any of them (source line 196), so any two
choices of those arguments give identical outputs. -/
theorem decoder_no_cross_ignores_context {α β μ ρ : Type} [Add α] (d : ℕ)
    (sa : ℕ → α → ρ → α) (ca : ℕ → α → β → μ → μ → α) (ffm : ℕ → α → α) (rp : ρ)
    (x : α) (c c' : β) (m m' cm cm' : μ) :
    (Decoder.init d false sa ca ffm rp).forward x c m cm =
      (Decoder.init d false sa ca ffm rp).forward x c' m' cm' := by
  rw [show Decoder.init d false sa ca ffm rp =
    ⟨(List.range d).map fun li => ⟨sa li, none, ffm li⟩, rp⟩ from rfl]
  exact Decoder.forward_none_cross_aux (List.range d) sa ffm rp x c c' m m' cm cm'
